import Mathlib

/-!
Verification of the lease storage engine of the Kea DHCP server
(memfile lease manager, IPv6 extended-info slice).

The engine implementation (`Memfile_LeaseMgr`) is not part of this source
slice; only its unit tests are
(`src/lib/dhcpsrv/tests/memfile_lease_extended_info_unittest.cc`).  The
definitions below are therefore modelled from the specification, except
where the repository's own tests pin the behaviour; the pinned points are
recorded in the doc comments.  IPv6 addresses are embedded as natural
numbers below `2 ^ 128`; identifiers (relay ids, remote ids, DUIDs) are
byte lists.
-/

namespace Kea

/-- IPv6 address, as its 128-bit numeric value. -/
abbrev Addr := Nat

/-- Identifier bytes (relay id, remote id, DUID). -/
abbrev Ident := List Nat

/-- Modelled from the spec: a v6 lease record, with the fields the tests
construct (`Lease6(TYPE_NA, addr, duid, iaid, preferred, valid, subnet_id)`).
The opaque extension blob is absent: the test leases carry no extended info
and the secondary tables are populated through `addRelayId6` /
`addRemoteId6` directly. -/
structure Lease6 where
  addr : Addr
  duid : Ident
  iaid : Nat
  preferred_lft : Nat
  valid_lft : Nat
  subnet_id : Nat
deriving Repr, DecidableEq

/-- Modelled from the spec: the engine state.  The primary index `leases6`
is an address-keyed map (kept as an insertion list with unique addresses;
queries sort by address, mirroring the ordered container).  The secondary
tables `relay_id6` / `remote_id6` are multisets of
`(identifier bytes, address)` rows: the repository's test `relayIdTable6`
pins that six inserts, one of them an exact duplicate, yield a row count of
six, so insertion is not set-like. -/
structure LeaseMgrState where
  leases6 : List Lease6
  relay_id6 : List (Ident × Addr)
  remote_id6 : List (Ident × Addr)
deriving Repr, DecidableEq

/-- A freshly started lease manager: all tables empty. -/
def newState : LeaseMgrState := ⟨[], [], []⟩

/-- Row count of the by-relay-id table (`relay_id6_.size()`). -/
def relayTableSize (s : LeaseMgrState) : Nat := s.relay_id6.length

/-- Row count of the by-remote-id table (`remote_id6_.size()`). -/
def remoteTableSize (s : LeaseMgrState) : Nat := s.remote_id6.length

/-- Modelled from the spec: `addRelayId6(lease_addr, relay_id)` inserts the
`(relay_id, lease_addr)` row into the by-relay-id table.  The repository's
test `relayIdTable6` pins multiset semantics: an exact duplicate insert adds
a second row (six inserts, one duplicate, give size six). -/
def addRelayId6 (s : LeaseMgrState) (a : Addr) (id : Ident) : LeaseMgrState :=
  { s with relay_id6 := s.relay_id6 ++ [(id, a)] }

/-- Modelled from the spec: `addRemoteId6(lease_addr, remote_id)` inserts
the `(remote_id, lease_addr)` row into the by-remote-id table, with the same
multiset semantics as `addRelayId6` (pinned by test `remoteIdTable6`). -/
def addRemoteId6 (s : LeaseMgrState) (a : Addr) (id : Ident) : LeaseMgrState :=
  { s with remote_id6 := s.remote_id6 ++ [(id, a)] }

/-- Modelled from the spec: `deleteExtendedInfo6(addr)` removes every row
whose address matches from both secondary tables, across all identifiers; a
no-op when none match. -/
def deleteExtendedInfo6 (s : LeaseMgrState) (a : Addr) : LeaseMgrState :=
  { s with
    relay_id6 := s.relay_id6.filter (fun r => decide (r.2 ≠ a)),
    remote_id6 := s.remote_id6.filter (fun r => decide (r.2 ≠ a)) }

/-- Modelled from the spec: `get(address)` on the primary index returns the
lease stored at that address, or nothing; absence is not an error. -/
def getLease6 (s : LeaseMgrState) (a : Addr) : Option Lease6 :=
  s.leases6.find? (fun l => decide (l.addr = a))

/-- Modelled from the spec: `add(lease)` fails with `DuplicateKey` (here:
`false`, state unchanged) when the address already exists, otherwise inserts
the record; the test leases carry no extended info, so no secondary rows are
derived. -/
def addLease6 (s : LeaseMgrState) (l : Lease6) : LeaseMgrState × Bool :=
  if s.leases6.any (fun x => decide (x.addr = l.addr)) then (s, false)
  else ({ s with leases6 := s.leases6 ++ [l] }, true)

/-- Add a list of leases in order, reporting whether every add succeeded. -/
def addLeases6 (s : LeaseMgrState) : List Lease6 → LeaseMgrState × Bool
  | [] => (s, true)
  | l :: ls =>
    let (s', ok) := addLease6 s l
    let (s'', oks) := addLeases6 s' ls
    (s'', ok && oks)

/-! ### Sorted deduplicated address lists

The ordered multi-index container iterates the rows of one identifier in
ascending address order; queries deduplicate by address while iterating.
`sortDedup` captures the resulting address sequence. -/

/-- Insert an address into a strictly ascending list, dropping it when
already present. -/
def insSortedDedup (a : Nat) : List Nat → List Nat
  | [] => [a]
  | b :: l =>
    if a < b then a :: b :: l
    else if a = b then b :: l
    else b :: insSortedDedup a l

/-- Strictly ascending deduplicated arrangement of a list of addresses. -/
def sortDedup (l : List Nat) : List Nat := l.foldr insSortedDedup []

/-! ### Queries -/

/-- Modelled from the spec: error taxonomy for page requests: a zero
`page_size` is rejected with `InvalidArgument` before any result is
produced. -/
inductive LeaseErr where
  | invalidArgument
deriving Repr, DecidableEq

/-- Modelled from the spec: the leading `plen` bits of `a` and `b` agree
(prefix containment test for link scoping over 128-bit addresses). -/
def prefixEq (plen : Nat) (a b : Addr) : Bool :=
  decide (a / 2 ^ (128 - plen) = b / 2 ^ (128 - plen))

/-- Modelled from the spec: the ordered deduplicated address sequence an
identifier-scoped query walks before truncation: the addresses of the rows
carrying the identifier, restricted to addresses strictly greater than
`after` (all of them when `after` is the zero address), restricted to the
link prefix when a non-zero `link` is supplied, and restricted to addresses
that resolve in the primary index (rows whose address has no lease are
skipped). -/
def idQueryAddrs (tbl : List (Ident × Addr)) (s : LeaseMgrState)
    (id : Ident) (link : Addr) (plen : Nat) (after : Addr) : List Addr :=
  let addrs := sortDedup ((tbl.filter (fun r => decide (r.1 = id))).map Prod.snd)
  let addrs := if after = 0 then addrs else addrs.filter (fun a => decide (after < a))
  let addrs := if link = 0 then addrs else addrs.filter (fun a => prefixEq plen link a)
  addrs.filter (fun a => (getLease6 s a).isSome)

/-- Modelled from the spec: identifier-scoped paginated query over one
secondary table: walk the matching deduplicated ascending addresses,
truncate to `psize`, and resolve each address to its lease through the
primary index.  A zero `psize` is rejected with `InvalidArgument`. -/
def getLeases6ByIdTable (tbl : List (Ident × Addr)) (s : LeaseMgrState)
    (id : Ident) (link : Addr) (plen : Nat) (after : Addr) (psize : Nat) :
    Except LeaseErr (List Lease6) :=
  if psize = 0 then .error .invalidArgument
  else .ok (((idQueryAddrs tbl s id link plen after).take psize).filterMap (getLease6 s))

/-- Modelled from the spec: `getLeases6ByRelayId` (identifier-scoped query
over the by-relay-id table). -/
def getLeases6ByRelayId (s : LeaseMgrState) (id : Ident) (link : Addr)
    (plen : Nat) (after : Addr) (psize : Nat) : Except LeaseErr (List Lease6) :=
  getLeases6ByIdTable s.relay_id6 s id link plen after psize

/-- Modelled from the spec: `getLeases6ByRemoteId` (identifier-scoped query
over the by-remote-id table). -/
def getLeases6ByRemoteId (s : LeaseMgrState) (id : Ident) (link : Addr)
    (plen : Nat) (after : Addr) (psize : Nat) : Except LeaseErr (List Lease6) :=
  getLeases6ByIdTable s.remote_id6 s id link plen after psize

/-- Modelled from the spec: the ascending address sequence a link-scoped
primary-index scan walks before truncation: the lease addresses restricted
to addresses strictly greater than `after` (all when `after` is zero) and to
the link prefix. -/
def linkQueryAddrs (s : LeaseMgrState) (link : Addr) (plen : Nat)
    (after : Addr) : List Addr :=
  let addrs := sortDedup (s.leases6.map Lease6.addr)
  let addrs := if after = 0 then addrs else addrs.filter (fun a => decide (after < a))
  (addrs.filter (fun a => prefixEq plen link a)).filter
    (fun a => (getLease6 s a).isSome)

/-- Modelled from the spec: `getLeases6ByLink` scans the primary index
directly (never the identifier tables), restricted to the link prefix and to
addresses strictly greater than `after` (all when `after` is zero), in
ascending address order, truncated to `psize` leases. -/
def getLeases6ByLink (s : LeaseMgrState) (link : Addr) (plen : Nat)
    (after : Addr) (psize : Nat) : Except LeaseErr (List Lease6) :=
  if psize = 0 then .error .invalidArgument
  else .ok (((linkQueryAddrs s link plen after).take psize).filterMap (getLease6 s))

/-! ### Test constants

The unit tests use addresses `2001:db8::0` … `2001:db8::7`, the off-link
address `2001:db8:1::4`, and eight DUID byte strings. -/

/-- Numeric value of `2001:db8::` . -/
def addrBase : Addr := 0x20010db8 * 2 ^ 96

/-- Numeric value of `2001:db8::i`. -/
def addr6 (i : Nat) : Addr := addrBase + i

/-- Numeric value of the off-link address `2001:db8:1::4`. -/
def otherAddr : Addr := addrBase + 2 ^ 80 + 4

/-- DUID bytes used by the tests (strings of eight repeated characters and
one hexadecimal string). -/
def duid6 (i : Nat) : Ident :=
  match i with
  | 0 => List.replicate 8 119     -- "wwwwwwww"
  | 1 => List.replicate 8 66      -- "BBBBBBBB"
  | 2 => List.replicate 8 58      -- "::::::::"
  | 3 => [48, 49, 50, 51, 52, 53, 54, 55, 56, 57, 97, 99, 100, 101, 102]
  | 4 => List.replicate 8 66      -- "BBBBBBBB"
  | 5 => List.replicate 8 36      -- "$$$$$$$$"
  | 6 => List.replicate 8 94      -- "^^^^^^^^"
  | _ => List.replicate 8 229     -- eight 0xe5 bytes

/-- The eight leases built by the test helper `initLease6`:
`Lease6(TYPE_NA, ADDRESS6[i], DUID6[i], 123, 1000, 2000, i)`. -/
def testLease6 (i : Nat) : Lease6 :=
  { addr := addr6 i, duid := duid6 i, iaid := 123,
    preferred_lft := 1000, valid_lft := 2000, subnet_id := i }

/-- State after `start(V6)` and `initLease6`: the eight test leases added,
secondary tables empty. -/
def initState6 : LeaseMgrState :=
  (addLeases6 newState ((List.range 8).map testLease6)).1

/-- The six-row relay-table fill of tests `relayIdTable6` and
`getLeases6ByRelayId`: rows `(addr0, id0)`, `(addr0, id0)` again,
`(addr0, id1)`, `(addr1, id0)`, `(addr1, id1)`, `(addr2, id1)`. -/
def fillRelay6 (s : LeaseMgrState) : LeaseMgrState :=
  addRelayId6 (addRelayId6 (addRelayId6 (addRelayId6 (addRelayId6 (addRelayId6
    s (addr6 0) (duid6 0)) (addr6 0) (duid6 0)) (addr6 0) (duid6 1))
    (addr6 1) (duid6 0)) (addr6 1) (duid6 1)) (addr6 2) (duid6 1)

/-- The six-row remote-table fill of tests `remoteIdTable6` and
`getLeases6ByRemoteId`, mirroring `fillRelay6`. -/
def fillRemote6 (s : LeaseMgrState) : LeaseMgrState :=
  addRemoteId6 (addRemoteId6 (addRemoteId6 (addRemoteId6 (addRemoteId6 (addRemoteId6
    s (addr6 0) (duid6 0)) (addr6 0) (duid6 0)) (addr6 0) (duid6 1))
    (addr6 1) (duid6 0)) (addr6 1) (duid6 1)) (addr6 2) (duid6 1)

/-! ### Pagination protocol -/

/-- The full ascending deduplicated list of addresses matching a relay
identifier that resolve in the primary index: the address sequence an
unrestricted (no link, no cursor) relay-id query walks. -/
def relayMatch6 (s : LeaseMgrState) (id : Ident) : List Addr :=
  idQueryAddrs s.relay_id6 s id 0 0 0

/-- Number of pages needed for `n` rows at page size `psize`:
the ceiling of `n / psize`. -/
def pageCount (n psize : Nat) : Nat := (n + psize - 1) / psize

/-- The lease list carried by a successful page result; an error carries no
leases. -/
def pageLeases (r : Except LeaseErr (List Lease6)) : List Lease6 :=
  match r with
  | .error _ => []
  | .ok page => page

/-- One step of the pagination cursor protocol: stop on an empty page,
otherwise keep the page's addresses and resume from the last one. -/
def contPages (as : List Addr) (rec : Addr → List Addr) : List Addr :=
  match as.getLast? with
  | none => []
  | some last => as ++ rec last

/-- The caller side of the pagination cursor protocol on the relay table:
issue `k` successive `getLeases6ByRelayId` calls, each resuming from the
address of the last row of the previous page, collecting the returned
addresses; stop early on an error or an empty page. -/
def relayPages6 (s : LeaseMgrState) (id : Ident) (psize : Nat) :
    Nat → Addr → List Addr
  | 0, _ => []
  | k + 1, after =>
    contPages ((pageLeases (getLeases6ByRelayId s id 0 0 after psize)).map Lease6.addr)
      (relayPages6 s id psize k)

/-- Drop from both secondary tables every row whose address has no lease in
the primary index (the orphaned rows a defensive query must skip). -/
def pruneOrphans6 (s : LeaseMgrState) : LeaseMgrState :=
  { s with
    relay_id6 := s.relay_id6.filter (fun r => (getLease6 s r.2).isSome),
    remote_id6 := s.remote_id6.filter (fun r => (getLease6 s r.2).isSome) }

/-! ### Concurrency modes

Modelled from the spec: the engine has two modes fixed at construction:
single-threaded (no locking) and multi-threaded (every public operation
acquires the engine-wide lock for its duration and releases it on every
exit path).  A sequence of operations issued from a single thread always
finds the lock free. -/

/-- An engine operation issued by a caller. -/
inductive Op where
  | addL (l : Lease6)
  | addRel (a : Addr) (id : Ident)
  | addRem (a : Addr) (id : Ident)
  | delX (a : Addr)
  | qRelay (id : Ident) (link : Addr) (plen : Nat) (after : Addr) (psize : Nat)
  | qRemote (id : Ident) (link : Addr) (plen : Nat) (after : Addr) (psize : Nat)
  | qLink (link : Addr) (plen : Nat) (after : Addr) (psize : Nat)
deriving Repr, DecidableEq

/-- The caller-visible outcome of one engine operation. -/
inductive Out where
  | added (ok : Bool)
  | done
  | page (r : Except LeaseErr (List Lease6))
deriving Repr

/-- The state transition and output of one operation, independent of the
locking mode. -/
def applyOp (s : LeaseMgrState) : Op → LeaseMgrState × Out
  | .addL l => ((addLease6 s l).1, .added (addLease6 s l).2)
  | .addRel a id => (addRelayId6 s a id, .done)
  | .addRem a id => (addRemoteId6 s a id, .done)
  | .delX a => (deleteExtendedInfo6 s a, .done)
  | .qRelay id link plen after psize =>
    (s, .page (getLeases6ByRelayId s id link plen after psize))
  | .qRemote id link plen after psize =>
    (s, .page (getLeases6ByRemoteId s id link plen after psize))
  | .qLink link plen after psize =>
    (s, .page (getLeases6ByLink s link plen after psize))

/-- Modelled from the spec: the engine with its constructor-time threading
mode and the engine-wide lock. -/
structure Engine where
  multiThreaded : Bool
  locked : Bool
  st : LeaseMgrState
deriving Repr, DecidableEq

/-- Modelled from the spec: run one public operation.  In multi-threaded
mode the engine-wide lock is acquired for the duration of the operation and
released at exit; an already-held lock would block the caller (`none`, which
cannot happen for a single-threaded sequence).  In single-threaded mode no
locking happens. -/
def runOp (e : Engine) (op : Op) : Option (Engine × Out) :=
  if e.multiThreaded then
    if e.locked then none
    else
      let held : Engine := { e with locked := true }
      let (s', out) := applyOp held.st op
      some ({ held with st := s', locked := false }, out)
  else
    let (s', out) := applyOp e.st op
    some ({ e with st := s' }, out)

/-- Run a sequence of operations from a single thread, collecting every
output; blocking anywhere blocks the whole run. -/
def runOps (e : Engine) : List Op → Option (Engine × List Out)
  | [] => some (e, [])
  | op :: ops =>
    (runOp e op).bind fun p =>
      (runOps p.1 ops).map fun q => (q.1, p.2 :: q.2)

/-! ### Lemmas: sorted deduplicated address lists -/

theorem mem_insSortedDedup {x a : Nat} {l : List Nat} :
    x ∈ insSortedDedup a l ↔ x = a ∨ x ∈ l := by
  induction l with
  | nil => simp [insSortedDedup]
  | cons b t ih =>
    by_cases h1 : a < b
    · simp [insSortedDedup, h1]
    · by_cases h2 : a = b
      · subst h2
        simp [insSortedDedup, h1]
      · simp only [insSortedDedup, if_neg h1, if_neg h2, List.mem_cons, ih]
        constructor
        · rintro (h | h | h)
          · exact Or.inr (Or.inl h)
          · exact Or.inl h
          · exact Or.inr (Or.inr h)
        · rintro (h | h | h)
          · exact Or.inr (Or.inl h)
          · exact Or.inl h
          · exact Or.inr (Or.inr h)

theorem pairwise_insSortedDedup {a : Nat} {l : List Nat}
    (h : List.Pairwise (· < ·) l) :
    List.Pairwise (· < ·) (insSortedDedup a l) := by
  induction l with
  | nil => simp [insSortedDedup]
  | cons b t ih =>
    rcases List.pairwise_cons.mp h with ⟨hb, ht⟩
    by_cases h1 : a < b
    · rw [insSortedDedup, if_pos h1]
      refine List.pairwise_cons.mpr ⟨?_, h⟩
      intro y hy
      rcases List.mem_cons.mp hy with rfl | hy
      · exact h1
      · exact lt_trans h1 (hb y hy)
    · by_cases h2 : a = b
      · rw [insSortedDedup, if_neg h1, if_pos h2]; exact h
      · rw [insSortedDedup, if_neg h1, if_neg h2]
        refine List.pairwise_cons.mpr ⟨?_, ih ht⟩
        intro y hy
        rcases mem_insSortedDedup.mp hy with rfl | hy
        · omega
        · exact hb y hy

theorem sortDedup_pairwise (l : List Nat) :
    List.Pairwise (· < ·) (sortDedup l) := by
  induction l with
  | nil => simp [sortDedup]
  | cons a t ih =>
    have : sortDedup (a :: t) = insSortedDedup a (sortDedup t) := rfl
    rw [this]
    exact pairwise_insSortedDedup ih

theorem mem_sortDedup {x : Nat} {l : List Nat} : x ∈ sortDedup l ↔ x ∈ l := by
  induction l with
  | nil => simp [sortDedup]
  | cons a t ih =>
    have : sortDedup (a :: t) = insSortedDedup a (sortDedup t) := rfl
    rw [this, mem_insSortedDedup, ih, List.mem_cons]

theorem eq_of_pairwise_lt_of_mem_iff :
    ∀ {l₁ l₂ : List Nat}, List.Pairwise (· < ·) l₁ → List.Pairwise (· < ·) l₂ →
      (∀ x, x ∈ l₁ ↔ x ∈ l₂) → l₁ = l₂ := by
  intro l₁
  induction l₁ with
  | nil =>
    intro l₂ _ _ hm
    cases l₂ with
    | nil => rfl
    | cons b u => exact absurd ((hm b).mpr (List.mem_cons_self b u)) (List.not_mem_nil b)
  | cons a t ih =>
    intro l₂ h1 h2 hm
    cases l₂ with
    | nil => exact absurd ((hm a).mp (List.mem_cons_self a t)) (List.not_mem_nil a)
    | cons b u =>
      rcases List.pairwise_cons.mp h1 with ⟨ha, ht⟩
      rcases List.pairwise_cons.mp h2 with ⟨hb, hu⟩
      have hab : a = b := by
        rcases List.mem_cons.mp ((hm a).mp (List.mem_cons_self a t)) with h | h
        · exact h
        · rcases List.mem_cons.mp ((hm b).mpr (List.mem_cons_self b u)) with h' | h'
          · have := hb a h; omega
          · have := hb a h; have := ha b h'; omega
      subst hab
      have htu : t = u := by
        apply ih ht hu
        intro x
        constructor
        · intro hx
          rcases List.mem_cons.mp ((hm x).mp (List.mem_cons.mpr (Or.inr hx))) with rfl | h
          · exact absurd (ha x hx) (lt_irrefl x)
          · exact h
        · intro hx
          rcases List.mem_cons.mp ((hm x).mpr (List.mem_cons.mpr (Or.inr hx))) with rfl | h
          · exact absurd (hb x hx) (lt_irrefl x)
          · exact h
      rw [htu]

theorem sortDedup_filter (p : Nat → Bool) (l : List Nat) :
    sortDedup (l.filter p) = (sortDedup l).filter p := by
  apply eq_of_pairwise_lt_of_mem_iff (sortDedup_pairwise _)
    ((sortDedup_pairwise l).filter p)
  intro x
  simp [mem_sortDedup, List.mem_filter]

/-! ### Lemmas: address resolution and query pipelines -/

theorem getLease6_addr {s : LeaseMgrState} {a : Addr} {l : Lease6}
    (h : getLease6 s a = some l) : l.addr = a := by
  have := List.find?_some h
  exact of_decide_eq_true this

theorem map_addr_filterMap (s : LeaseMgrState) (L : List Addr) :
    (L.filterMap (getLease6 s)).map Lease6.addr
      = L.filter (fun a => (getLease6 s a).isSome) := by
  induction L with
  | nil => rfl
  | cons a t ih =>
    cases h : getLease6 s a with
    | none => simp [List.filterMap_cons, h, List.filter_cons, ih]
    | some w =>
      have hw : w.addr = a := getLease6_addr h
      simp [List.filterMap_cons, h, List.filter_cons, ih, hw]

theorem mem_map_snd_filter_fst {tbl : List (Ident × Addr)} {id : Ident} {a : Addr} :
    a ∈ (tbl.filter (fun r => decide (r.1 = id))).map Prod.snd ↔ (id, a) ∈ tbl := by
  simp only [List.mem_map, List.mem_filter, decide_eq_true_eq]
  constructor
  · rintro ⟨⟨i, b⟩, ⟨hmem, h1⟩, h2⟩
    simp only at h1 h2
    subst h1; subst h2
    exact hmem
  · intro h
    exact ⟨(id, a), ⟨h, rfl⟩, rfl⟩

theorem mem_idQueryAddrs {tbl : List (Ident × Addr)} {s : LeaseMgrState}
    {id : Ident} {link : Addr} {plen : Nat} {after : Addr} {a : Addr} :
    a ∈ idQueryAddrs tbl s id link plen after ↔
      (id, a) ∈ tbl ∧ (after = 0 ∨ after < a)
        ∧ (link = 0 ∨ prefixEq plen link a = true)
        ∧ (getLease6 s a).isSome = true := by
  unfold idQueryAddrs
  by_cases ha : after = 0 <;> by_cases hl : link = 0 <;>
    simp [ha, hl, List.mem_filter, mem_sortDedup, mem_map_snd_filter_fst] <;>
    tauto

theorem pairwise_idQueryAddrs (tbl : List (Ident × Addr)) (s : LeaseMgrState)
    (id : Ident) (link : Addr) (plen : Nat) (after : Addr) :
    List.Pairwise (· < ·) (idQueryAddrs tbl s id link plen after) := by
  unfold idQueryAddrs
  by_cases ha : after = 0 <;> by_cases hl : link = 0 <;>
    simp only [ha, hl, if_pos, if_neg, ite_true, ite_false] <;>
    exact List.Pairwise.filter _ (by
      first
      | exact sortDedup_pairwise _
      | exact List.Pairwise.filter _ (sortDedup_pairwise _)
      | exact List.Pairwise.filter _ (List.Pairwise.filter _ (sortDedup_pairwise _)))

theorem mem_linkQueryAddrs {s : LeaseMgrState} {link : Addr} {plen : Nat}
    {after : Addr} {a : Addr} :
    a ∈ linkQueryAddrs s link plen after ↔
      a ∈ s.leases6.map Lease6.addr ∧ (after = 0 ∨ after < a)
        ∧ prefixEq plen link a = true ∧ (getLease6 s a).isSome = true := by
  unfold linkQueryAddrs
  by_cases ha : after = 0 <;>
    simp [ha, List.mem_filter, mem_sortDedup] <;> tauto

theorem pairwise_linkQueryAddrs (s : LeaseMgrState) (link : Addr) (plen : Nat)
    (after : Addr) :
    List.Pairwise (· < ·) (linkQueryAddrs s link plen after) := by
  unfold linkQueryAddrs
  by_cases ha : after = 0 <;>
    simp only [ha, ite_true, ite_false] <;>
    exact List.Pairwise.filter _ (List.Pairwise.filter _ (by
      first
      | exact sortDedup_pairwise _
      | exact List.Pairwise.filter _ (sortDedup_pairwise _)))

theorem idQuery_ok_addrs {tbl : List (Ident × Addr)} {s : LeaseMgrState}
    {id : Ident} {link : Addr} {plen : Nat} {after : Addr} {psize : Nat}
    {res : List Lease6}
    (h : getLeases6ByIdTable tbl s id link plen after psize = .ok res) :
    res.map Lease6.addr = (idQueryAddrs tbl s id link plen after).take psize := by
  unfold getLeases6ByIdTable at h
  by_cases hp : psize = 0
  · simp [hp] at h
  · rw [if_neg hp] at h
    have hres : res = ((idQueryAddrs tbl s id link plen after).take psize).filterMap
        (getLease6 s) := by
      cases h; rfl
    rw [hres, map_addr_filterMap]
    apply List.filter_eq_self.mpr
    intro a hmem
    have : a ∈ idQueryAddrs tbl s id link plen after :=
      (List.take_sublist _ _).subset hmem
    exact (mem_idQueryAddrs.mp this).2.2.2

theorem linkQuery_ok_addrs {s : LeaseMgrState} {link : Addr} {plen : Nat}
    {after : Addr} {psize : Nat} {res : List Lease6}
    (h : getLeases6ByLink s link plen after psize = .ok res) :
    res.map Lease6.addr = (linkQueryAddrs s link plen after).take psize := by
  unfold getLeases6ByLink at h
  by_cases hp : psize = 0
  · simp [hp] at h
  · rw [if_neg hp] at h
    have hres : res = ((linkQueryAddrs s link plen after).take psize).filterMap
        (getLease6 s) := by
      cases h; rfl
    rw [hres, map_addr_filterMap]
    apply List.filter_eq_self.mpr
    intro a hmem
    have : a ∈ linkQueryAddrs s link plen after :=
      (List.take_sublist _ _).subset hmem
    exact (mem_linkQueryAddrs.mp this).2.2.2

theorem idQuery_ok_resolves {tbl : List (Ident × Addr)} {s : LeaseMgrState}
    {id : Ident} {link : Addr} {plen : Nat} {after : Addr} {psize : Nat}
    {res : List Lease6}
    (h : getLeases6ByIdTable tbl s id link plen after psize = .ok res) :
    ∀ l ∈ res, getLease6 s l.addr = some l := by
  unfold getLeases6ByIdTable at h
  by_cases hp : psize = 0
  · simp [hp] at h
  · rw [if_neg hp] at h
    have hres : res = ((idQueryAddrs tbl s id link plen after).take psize).filterMap
        (getLease6 s) := by
      cases h; rfl
    intro l hl
    rw [hres] at hl
    rcases List.mem_filterMap.mp hl with ⟨a, _, hla⟩
    rw [getLease6_addr hla]
    exact hla

theorem idQuery_ok_sorted {tbl : List (Ident × Addr)} {s : LeaseMgrState}
    {id : Ident} {link : Addr} {plen : Nat} {after : Addr} {psize : Nat}
    {res : List Lease6}
    (h : getLeases6ByIdTable tbl s id link plen after psize = .ok res) :
    List.Pairwise (· < ·) (res.map Lease6.addr) := by
  rw [idQuery_ok_addrs h]
  exact List.Pairwise.sublist (List.take_sublist _ _) (pairwise_idQueryAddrs tbl s id link plen after)

theorem linkQuery_ok_sorted {s : LeaseMgrState} {link : Addr} {plen : Nat}
    {after : Addr} {psize : Nat} {res : List Lease6}
    (h : getLeases6ByLink s link plen after psize = .ok res) :
    List.Pairwise (· < ·) (res.map Lease6.addr) := by
  rw [linkQuery_ok_addrs h]
  exact List.Pairwise.sublist (List.take_sublist _ _) (pairwise_linkQueryAddrs s link plen after)

theorem idQuery_ok_length {tbl : List (Ident × Addr)} {s : LeaseMgrState}
    {id : Ident} {link : Addr} {plen : Nat} {after : Addr} {psize : Nat}
    {res : List Lease6}
    (h : getLeases6ByIdTable tbl s id link plen after psize = .ok res) :
    res.length ≤ psize := by
  have := congrArg List.length (idQuery_ok_addrs h)
  simp only [List.length_map, List.length_take] at this
  omega

theorem linkQuery_ok_length {s : LeaseMgrState} {link : Addr} {plen : Nat}
    {after : Addr} {psize : Nat} {res : List Lease6}
    (h : getLeases6ByLink s link plen after psize = .ok res) :
    res.length ≤ psize := by
  have := congrArg List.length (linkQuery_ok_addrs h)
  simp only [List.length_map, List.length_take] at this
  omega

/-! ### Lemmas: the pagination protocol -/

theorem pageCount_eq_zero {n P : Nat} (hP : 0 < P) : pageCount n P = 0 ↔ n = 0 := by
  unfold pageCount
  constructor
  · intro h
    by_contra hn
    have : 1 ≤ (n + P - 1) / P := (Nat.one_le_div_iff hP).mpr (by omega)
    omega
  · intro h
    subst h
    exact Nat.div_eq_of_lt (by omega)

theorem pageCount_eq_one {n P : Nat} (hP : 0 < P) (h1 : 1 ≤ n) (h2 : n ≤ P) :
    pageCount n P = 1 := by
  unfold pageCount
  have lo : 1 ≤ (n + P - 1) / P := (Nat.one_le_div_iff hP).mpr (by omega)
  have hi : (n + P - 1) / P < 2 := (Nat.div_lt_iff_lt_mul hP).mpr (by omega)
  omega

theorem pageCount_step {n P : Nat} (hP : 0 < P) (h : P < n) :
    pageCount n P = pageCount (n - P) P + 1 := by
  unfold pageCount
  have he : n + P - 1 = (n - P + P - 1) + P := by omega
  rw [he, Nat.add_div_right _ hP]

theorem filter_lt_get_eq_drop :
    ∀ (S : List Addr), List.Pairwise (· < ·) S → ∀ (i : Nat) (h : i < S.length),
      S.filter (fun a => decide (S.get ⟨i, h⟩ < a)) = S.drop (i + 1) := by
  intro S
  induction S with
  | nil => intro _ i h; simp at h
  | cons b t ih =>
    intro hp i h
    rcases List.pairwise_cons.mp hp with ⟨hb, ht⟩
    cases i with
    | zero =>
      simp only [List.get, List.filter_cons, List.drop_succ_cons, List.drop_zero]
      rw [if_neg (by simp)]
      apply List.filter_eq_self.mpr
      intro a ha
      exact decide_eq_true (hb a ha)
    | succ j =>
      have hj : j < t.length := by simpa using h
      have hv : (b :: t).get ⟨j + 1, h⟩ = t.get ⟨j, hj⟩ := rfl
      rw [hv]
      simp only [List.filter_cons, List.drop_succ_cons]
      rw [if_neg (by
        simp only [decide_eq_true_eq]
        exact Nat.lt_asymm (hb _ (List.get_mem t j hj)))]
      exact ih ht j hj

theorem getLast?_take_of_lt {S : List Addr} {P : Nat} (hP : 0 < P)
    (h : P ≤ S.length) :
    (S.take P).getLast? = some (S.get ⟨P - 1, by omega⟩) := by
  rw [List.getLast?_eq_getElem?]
  have hlen : (S.take P).length = P := by
    rw [List.length_take]; omega
  rw [hlen, List.getElem?_take, if_pos (by omega)]
  exact List.getElem?_eq_getElem (by omega)

theorem pairwise_relayMatch6 (s : LeaseMgrState) (id : Ident) :
    List.Pairwise (· < ·) (relayMatch6 s id) :=
  pairwise_idQueryAddrs s.relay_id6 s id 0 0 0

theorem mem_relayMatch6 {s : LeaseMgrState} {id : Ident} {a : Addr} :
    a ∈ relayMatch6 s id ↔ (id, a) ∈ s.relay_id6 ∧ (getLease6 s a).isSome = true := by
  unfold relayMatch6
  rw [mem_idQueryAddrs]
  simp

theorem idQueryAddrs_after_eq {s : LeaseMgrState} {id : Ident}
    (h0 : ∀ a ∈ relayMatch6 s id, 0 < a) (after : Addr) :
    idQueryAddrs s.relay_id6 s id 0 0 after
      = (relayMatch6 s id).filter (fun a => decide (after < a)) := by
  apply eq_of_pairwise_lt_of_mem_iff (pairwise_idQueryAddrs _ _ _ _ _ _)
    ((pairwise_relayMatch6 s id).filter _)
  intro x
  rw [mem_idQueryAddrs, List.mem_filter, mem_relayMatch6]
  constructor
  · rintro ⟨hrow, hafter, _, hres⟩
    refine ⟨⟨hrow, hres⟩, ?_⟩
    rcases hafter with rfl | hlt
    · exact decide_eq_true (h0 x (mem_relayMatch6.mpr ⟨hrow, hres⟩))
    · exact decide_eq_true hlt
  · rintro ⟨⟨hrow, hres⟩, hlt⟩
    exact ⟨hrow, Or.inr (of_decide_eq_true hlt), Or.inl rfl, hres⟩

theorem relayQuery_ok_eq {s : LeaseMgrState} {id : Ident}
    (h0 : ∀ a ∈ relayMatch6 s id, 0 < a) (after : Addr) {psize : Nat}
    (hp : psize ≠ 0) :
    getLeases6ByRelayId s id 0 0 after psize
      = .ok ((((relayMatch6 s id).filter (fun a => decide (after < a))).take
          psize).filterMap (getLease6 s)) := by
  unfold getLeases6ByRelayId getLeases6ByIdTable
  rw [if_neg hp, idQueryAddrs_after_eq h0]

theorem relayPage_map_addr {s : LeaseMgrState} {id : Ident}
    (after : Addr) (psize : Nat) :
    (((((relayMatch6 s id).filter (fun a => decide (after < a))).take
        psize).filterMap (getLease6 s)).map Lease6.addr)
      = ((relayMatch6 s id).filter (fun a => decide (after < a))).take psize := by
  rw [map_addr_filterMap]
  apply List.filter_eq_self.mpr
  intro a ha
  have : a ∈ relayMatch6 s id :=
    (List.mem_filter.mp ((List.take_sublist _ _).subset ha)).1
  exact (mem_relayMatch6.mp this).2

theorem pageLeases_ok (page : List Lease6) :
    pageLeases (.ok page) = page := rfl

theorem contPages_some {as : List Addr} {last : Addr} (rec : Addr → List Addr)
    (h : as.getLast? = some last) :
    contPages as rec = as ++ rec last := by
  unfold contPages
  rw [h]

theorem relayPages6_zero (s : LeaseMgrState) (id : Ident) (psize : Nat)
    (after : Addr) :
    relayPages6 s id psize 0 after = [] := rfl

theorem relayPages6_succ (s : LeaseMgrState) (id : Ident) (psize k : Nat)
    (after : Addr) :
    relayPages6 s id psize (k + 1) after
      = contPages ((pageLeases (getLeases6ByRelayId s id 0 0 after
          psize)).map Lease6.addr) (relayPages6 s id psize k) := rfl

theorem getLast?_eq_get_of_pos {l : List Addr} (h : 0 < l.length) :
    l.getLast? = some (l.get ⟨l.length - 1, by omega⟩) := by
  rw [List.getLast?_eq_getElem?]
  exact List.getElem?_eq_getElem (by omega)

theorem relayPages6_complete_aux {s : LeaseMgrState} {id : Ident} {psize : Nat}
    (hp : psize ≠ 0) (h0 : ∀ a ∈ relayMatch6 s id, 0 < a) :
    ∀ (k : Nat) (after : Addr),
      pageCount ((relayMatch6 s id).filter
        (fun a => decide (after < a))).length psize = k →
      relayPages6 s id psize k after
        = (relayMatch6 s id).filter (fun a => decide (after < a)) := by
  have hps : 0 < psize := Nat.pos_of_ne_zero hp
  intro k
  induction k with
  | zero =>
    intro after h
    have hlen : ((relayMatch6 s id).filter
        (fun a => decide (after < a))).length = 0 :=
      (pageCount_eq_zero hps).mp h
    rw [relayPages6_zero]
    exact (List.length_eq_zero.mp hlen).symm
  | succ k ih =>
    intro after h
    have hSpair : List.Pairwise (· < ·)
        ((relayMatch6 s id).filter (fun a => decide (after < a))) :=
      (pairwise_relayMatch6 s id).filter _
    have hSne : ((relayMatch6 s id).filter
        (fun a => decide (after < a))).length ≠ 0 := by
      intro h0len
      rw [h0len] at h
      rw [(pageCount_eq_zero hps).mpr rfl] at h
      omega
    rw [relayPages6_succ, relayQuery_ok_eq h0 after hp, pageLeases_ok,
      relayPage_map_addr]
    by_cases hle : ((relayMatch6 s id).filter
        (fun a => decide (after < a))).length ≤ psize
    · rw [List.take_of_length_le hle]
      have hk0 : k = 0 := by
        have h1 : pageCount ((relayMatch6 s id).filter
            (fun a => decide (after < a))).length psize = 1 :=
          pageCount_eq_one hps (by omega) hle
        omega
      subst hk0
      rw [contPages_some _ (getLast?_eq_get_of_pos (by omega))]
      rw [relayPages6_zero, List.append_nil]
    · push_neg at hle
      rw [contPages_some _ (getLast?_take_of_lt hps (le_of_lt hle))]
      have hafterlast : after < ((relayMatch6 s id).filter
          (fun a => decide (after < a))).get ⟨psize - 1, by omega⟩ := by
        have hmem := List.get_mem ((relayMatch6 s id).filter
          (fun a => decide (after < a))) (psize - 1) (by omega)
        exact of_decide_eq_true (List.mem_filter.mp hmem).2
      have hdrop : (relayMatch6 s id).filter
          (fun a => decide (((relayMatch6 s id).filter
            (fun a => decide (after < a))).get ⟨psize - 1, by omega⟩ < a))
          = ((relayMatch6 s id).filter (fun a => decide (after < a))).drop psize := by
        have hcomm : ((relayMatch6 s id).filter
            (fun a => decide (after < a))).filter
              (fun a => decide (((relayMatch6 s id).filter
                (fun a => decide (after < a))).get ⟨psize - 1, by omega⟩ < a))
            = (relayMatch6 s id).filter
              (fun a => decide (((relayMatch6 s id).filter
                (fun a => decide (after < a))).get ⟨psize - 1, by omega⟩ < a)) := by
          rw [List.filter_filter]
          apply List.filter_congr
          intro x _
          by_cases hx : ((relayMatch6 s id).filter
              (fun a => decide (after < a))).get ⟨psize - 1, by omega⟩ < x
          · rw [decide_eq_true hx, decide_eq_true (lt_trans hafterlast hx)]
            rfl
          · rw [decide_eq_false hx]
            rfl
        rw [← hcomm]
        have hfd := filter_lt_get_eq_drop ((relayMatch6 s id).filter
          (fun a => decide (after < a))) hSpair (psize - 1) (by omega)
        rw [hfd]
        congr 1
        omega
      have hstep := pageCount_step hps hle
      have hk : pageCount ((relayMatch6 s id).filter
          (fun a => decide (((relayMatch6 s id).filter
            (fun a => decide (after < a))).get ⟨psize - 1, by omega⟩ < a))).length
          psize = k := by
        rw [hdrop, List.length_drop]
        omega
      rw [ih _ hk, hdrop, List.take_append_drop]

theorem relay_after_last_empty {s : LeaseMgrState} {id : Ident} {psize : Nat}
    {last : Addr} (hp : psize ≠ 0) (h0 : ∀ a ∈ relayMatch6 s id, 0 < a)
    (hl : (relayMatch6 s id).getLast? = some last) :
    getLeases6ByRelayId s id 0 0 last psize = .ok [] := by
  rw [relayQuery_ok_eq h0 last hp]
  have hne : (relayMatch6 s id).length ≠ 0 := by
    intro h
    rw [List.length_eq_zero.mp h] at hl
    simp at hl
  rw [getLast?_eq_get_of_pos (by omega)] at hl
  have hlast : last = (relayMatch6 s id).get
      ⟨(relayMatch6 s id).length - 1, by omega⟩ := (Option.some.inj hl).symm
  subst hlast
  have hfd := filter_lt_get_eq_drop (relayMatch6 s id) (pairwise_relayMatch6 s id)
    ((relayMatch6 s id).length - 1) (by omega)
  rw [show (relayMatch6 s id).length - 1 + 1 = (relayMatch6 s id).length from
    by omega] at hfd
  rw [hfd, List.drop_length]
  simp

theorem idQuery_ok_mem {tbl : List (Ident × Addr)} {s : LeaseMgrState}
    {id : Ident} {link : Addr} {plen : Nat} {after : Addr} {psize : Nat}
    {res : List Lease6}
    (h : getLeases6ByIdTable tbl s id link plen after psize = .ok res)
    {l : Lease6} (hl : l ∈ res) :
    l.addr ∈ idQueryAddrs tbl s id link plen after ∧ getLease6 s l.addr = some l := by
  unfold getLeases6ByIdTable at h
  by_cases hp : psize = 0
  · simp [hp] at h
  · rw [if_neg hp] at h
    have hres : res = ((idQueryAddrs tbl s id link plen after).take psize).filterMap
        (getLease6 s) := by
      cases h; rfl
    rw [hres] at hl
    rcases List.mem_filterMap.mp hl with ⟨a, ha, hla⟩
    have haddr : l.addr = a := getLease6_addr hla
    refine ⟨?_, by rw [haddr]; exact hla⟩
    rw [haddr]
    exact (List.take_sublist _ _).subset ha

theorem prefixEq_congr {plen : Nat} {link link' : Addr} (a : Addr)
    (h : prefixEq plen link link' = true) :
    prefixEq plen link a = prefixEq plen link' a := by
  unfold prefixEq at h ⊢
  rw [of_decide_eq_true h]

theorem idQuery_link_congr {tbl : List (Ident × Addr)} {s : LeaseMgrState}
    {id : Ident} {plen : Nat} {link link' : Addr} (after : Addr) (psize : Nat)
    (hl : link ≠ 0) (hl' : link' ≠ 0) (h : prefixEq plen link link' = true) :
    getLeases6ByIdTable tbl s id link plen after psize
      = getLeases6ByIdTable tbl s id link' plen after psize := by
  unfold getLeases6ByIdTable
  by_cases hp : psize = 0
  · rw [if_pos hp, if_pos hp]
  · rw [if_neg hp, if_neg hp]
    have : idQueryAddrs tbl s id link plen after
        = idQueryAddrs tbl s id link' plen after := by
      simp only [idQueryAddrs]
      rw [if_neg hl, if_neg hl']
      congr 1
      apply List.filter_congr
      intro x _
      exact prefixEq_congr x h
    rw [this]

theorem idQuery_prune_eq (tbl : List (Ident × Addr)) (s : LeaseMgrState)
    (id : Ident) (link : Addr) (plen : Nat) (after : Addr) (psize : Nat) :
    getLeases6ByIdTable (tbl.filter (fun r => (getLease6 s r.2).isSome)) s
        id link plen after psize
      = getLeases6ByIdTable tbl s id link plen after psize := by
  unfold getLeases6ByIdTable
  by_cases hp : psize = 0
  · rw [if_pos hp, if_pos hp]
  · rw [if_neg hp, if_neg hp]
    have : idQueryAddrs (tbl.filter (fun r => (getLease6 s r.2).isSome)) s
        id link plen after = idQueryAddrs tbl s id link plen after := by
      apply eq_of_pairwise_lt_of_mem_iff (pairwise_idQueryAddrs _ _ _ _ _ _)
        (pairwise_idQueryAddrs _ _ _ _ _ _)
      intro x
      rw [mem_idQueryAddrs, mem_idQueryAddrs, List.mem_filter]
      constructor
      · rintro ⟨⟨hrow, _⟩, h2, h3, h4⟩
        exact ⟨hrow, h2, h3, h4⟩
      · rintro ⟨hrow, h2, h3, h4⟩
        exact ⟨⟨hrow, h4⟩, h2, h3, h4⟩
    rw [this]

theorem find?_addr_self :
    ∀ (L : List Lease6), (L.map Lease6.addr).Nodup →
      ∀ l ∈ L, L.find? (fun x => decide (x.addr = l.addr)) = some l := by
  intro L
  induction L with
  | nil => intro _ l hl; simp at hl
  | cons x t ih =>
    intro hnd l hl
    rcases List.mem_cons.mp hl with rfl | hlt
    · rw [List.find?_cons]
      have hd : decide (l.addr = l.addr) = true := by simp
      rw [hd]
    · rw [List.find?_cons]
      have hx : x.addr ≠ l.addr := by
        intro he
        have h1 : l.addr ∈ t.map Lease6.addr := List.mem_map.mpr ⟨l, hlt, rfl⟩
        have h2 := (List.pairwise_cons.mp hnd).1
        exact h2 l.addr h1 he
      rw [decide_eq_false hx]
      exact ih (List.pairwise_cons.mp hnd).2 l hlt

theorem getLease6_self {s : LeaseMgrState}
    (hnd : (s.leases6.map Lease6.addr).Nodup) {l : Lease6} (hl : l ∈ s.leases6) :
    getLease6 s l.addr = some l :=
  find?_addr_self s.leases6 hnd l hl

/-! ### Lemmas: the primary index add/get round trip -/

theorem addLease6_absent {s : LeaseMgrState} {l : Lease6}
    (h : getLease6 s l.addr = none) :
    addLease6 s l = ({ s with leases6 := s.leases6 ++ [l] }, true) := by
  unfold addLease6
  have hany : ¬ s.leases6.any (fun x => decide (x.addr = l.addr)) = true := by
    rw [List.any_eq_true]
    rintro ⟨x, hx, hpx⟩
    exact (List.find?_eq_none.mp h x hx) hpx
  rw [if_neg hany]

theorem addLease6_absent_fst {s : LeaseMgrState} {l : Lease6}
    (h : getLease6 s l.addr = none) :
    (addLease6 s l).1 = { s with leases6 := s.leases6 ++ [l] } := by
  rw [addLease6_absent h]

theorem addLease6_absent_snd {s : LeaseMgrState} {l : Lease6}
    (h : getLease6 s l.addr = none) :
    (addLease6 s l).2 = true := by
  rw [addLease6_absent h]

theorem getLease6_append_self {s : LeaseMgrState} {l : Lease6}
    (h : getLease6 s l.addr = none) :
    getLease6 { s with leases6 := s.leases6 ++ [l] } l.addr = some l := by
  show (s.leases6 ++ [l]).find? (fun x => decide (x.addr = l.addr)) = some l
  rw [List.find?_append]
  rw [show List.find? (fun x => decide (x.addr = l.addr)) s.leases6 = none from h]
  simp

theorem getLease6_append_other {s : LeaseMgrState} {l : Lease6} {a : Addr}
    (hne : l.addr ≠ a) :
    getLease6 { s with leases6 := s.leases6 ++ [l] } a = getLease6 s a := by
  show (s.leases6 ++ [l]).find? (fun x => decide (x.addr = a)) = _
  rw [List.find?_append]
  have h1 : List.find? (fun x => decide (x.addr = a)) [l] = none := by
    simp [hne]
  rw [h1, Option.or_none]
  rfl

theorem addLeases6_cons (s : LeaseMgrState) (l : Lease6) (ls : List Lease6) :
    addLeases6 s (l :: ls)
      = ((addLeases6 (addLease6 s l).1 ls).1,
         (addLease6 s l).2 && (addLeases6 (addLease6 s l).1 ls).2) := rfl

theorem getLease6_addLeases6_mono :
    ∀ (ls : List Lease6) (s : LeaseMgrState) (a : Addr) (w : Lease6),
      getLease6 s a = some w → getLease6 (addLeases6 s ls).1 a = some w := by
  intro ls
  induction ls with
  | nil => intro s a w h; exact h
  | cons l t ih =>
    intro s a w h
    show getLease6 (addLeases6 (addLease6 s l).1 t).1 a = some w
    apply ih
    by_cases hd : s.leases6.any (fun x => decide (x.addr = l.addr)) = true
    · have hfst : (addLease6 s l).1 = s := by
        unfold addLease6
        rw [if_pos hd]
      rw [hfst]
      exact h
    · have hfst : (addLease6 s l).1 = { s with leases6 := s.leases6 ++ [l] } := by
        unfold addLease6
        rw [if_neg hd]
      rw [hfst]
      have hw := List.find?_some h
      have hwmem := List.mem_of_find?_eq_some h
      have hne : l.addr ≠ a := by
        intro he
        apply hd
        rw [List.any_eq_true]
        refine ⟨w, hwmem, ?_⟩
        rw [of_decide_eq_true hw, he]
        simp
      rw [getLease6_append_other hne]
      exact h

theorem addLeases6_spec :
    ∀ (ls : List Lease6) (s : LeaseMgrState),
      (ls.map Lease6.addr).Nodup →
      (∀ l ∈ ls, getLease6 s l.addr = none) →
      (addLeases6 s ls).2 = true ∧
        ∀ l ∈ ls, getLease6 (addLeases6 s ls).1 l.addr = some l := by
  intro ls
  induction ls with
  | nil =>
    intro s _ _
    exact ⟨rfl, by intro l hl; simp at hl⟩
  | cons l t ih =>
    intro s hnd habs
    have habs_l : getLease6 s l.addr = none := habs l (List.mem_cons_self l t)
    have hnd_t : (t.map Lease6.addr).Nodup := (List.pairwise_cons.mp hnd).2
    have habs_t : ∀ x ∈ t, getLease6 (addLease6 s l).1 x.addr = none := by
      intro x hx
      rw [addLease6_absent_fst habs_l]
      have hne : l.addr ≠ x.addr :=
        (List.pairwise_cons.mp hnd).1 x.addr (List.mem_map.mpr ⟨x, hx, rfl⟩)
      rw [getLease6_append_other hne]
      exact habs x (List.mem_cons_of_mem l hx)
    obtain ⟨hok, hget⟩ := ih (addLease6 s l).1 hnd_t habs_t
    constructor
    · show ((addLease6 s l).2 && (addLeases6 (addLease6 s l).1 t).2) = true
      rw [addLease6_absent_snd habs_l, hok]
      rfl
    · intro x hx
      show getLease6 (addLeases6 (addLease6 s l).1 t).1 x.addr = some x
      rcases List.mem_cons.mp hx with rfl | hxt
      · apply getLease6_addLeases6_mono
        rw [addLease6_absent_fst habs_l]
        exact getLease6_append_self habs_l
      · exact hget x hxt

/-! ### Lemmas: threading modes -/

theorem runOp_mt (s0 : LeaseMgrState) (op : Op) :
    runOp ⟨true, false, s0⟩ op
      = some (⟨true, false, (applyOp s0 op).1⟩, (applyOp s0 op).2) := rfl

theorem runOp_st (s0 : LeaseMgrState) (op : Op) :
    runOp ⟨false, false, s0⟩ op
      = some (⟨false, false, (applyOp s0 op).1⟩, (applyOp s0 op).2) := rfl

theorem runOps_cons (e : Engine) (op : Op) (ops : List Op) :
    runOps e (op :: ops)
      = (runOp e op).bind fun p =>
          (runOps p.1 ops).map fun q => (q.1, p.2 :: q.2) := rfl

theorem getLease6_addRelayId6 (s : LeaseMgrState) (a : Addr) (id : Ident) :
    getLease6 (addRelayId6 s a id) = getLease6 s := rfl

theorem relay_id6_addRelayId6 (s : LeaseMgrState) (a : Addr) (id : Ident) :
    (addRelayId6 s a id).relay_id6 = s.relay_id6 ++ [(id, a)] := rfl

theorem relayQuery_dup_eq (s : LeaseMgrState) (a : Addr) (id : Ident)
    (hmem : (id, a) ∈ s.relay_id6) (link : Addr) (plen : Nat) (after : Addr)
    (psize : Nat) :
    getLeases6ByRelayId (addRelayId6 s a id) id link plen after psize
      = getLeases6ByRelayId s id link plen after psize := by
  unfold getLeases6ByRelayId getLeases6ByIdTable
  by_cases hp : psize = 0
  · rw [if_pos hp, if_pos hp]
  · rw [if_neg hp, if_neg hp]
    have haddrs : idQueryAddrs (addRelayId6 s a id).relay_id6 (addRelayId6 s a id)
        id link plen after = idQueryAddrs s.relay_id6 s id link plen after := by
      apply eq_of_pairwise_lt_of_mem_iff (pairwise_idQueryAddrs _ _ _ _ _ _)
        (pairwise_idQueryAddrs _ _ _ _ _ _)
      intro x
      rw [mem_idQueryAddrs, mem_idQueryAddrs, relay_id6_addRelayId6,
        getLease6_addRelayId6]
      constructor
      · rintro ⟨hrow, h2, h3, h4⟩
        refine ⟨?_, h2, h3, h4⟩
        rcases List.mem_append.mp hrow with h | h
        · exact h
        · have hxa : x = a := by
            have := List.mem_singleton.mp h
            exact congrArg Prod.snd this
          rw [hxa]
          exact hmem
      · rintro ⟨hrow, h2, h3, h4⟩
        exact ⟨List.mem_append.mpr (Or.inl hrow), h2, h3, h4⟩
    rw [haddrs, getLease6_addRelayId6]

theorem linkQuery_ok_mem {s : LeaseMgrState} {link : Addr} {plen : Nat}
    {after : Addr} {psize : Nat} {res : List Lease6}
    (h : getLeases6ByLink s link plen after psize = .ok res)
    {l : Lease6} (hl : l ∈ res) :
    l.addr ∈ linkQueryAddrs s link plen after ∧ getLease6 s l.addr = some l := by
  unfold getLeases6ByLink at h
  by_cases hp : psize = 0
  · simp [hp] at h
  · rw [if_neg hp] at h
    have hres : res = ((linkQueryAddrs s link plen after).take psize).filterMap
        (getLease6 s) := by
      cases h; rfl
    rw [hres] at hl
    rcases List.mem_filterMap.mp hl with ⟨a, ha, hla⟩
    have haddr : l.addr = a := getLease6_addr hla
    refine ⟨?_, by rw [haddr]; exact hla⟩
    rw [haddr]
    exact (List.take_sublist _ _).subset ha

/-! ### Claims -/

/-- Claim C1, counterexample: inserting the exact same (address, identifier)
pair a second time is not idempotent: starting from an empty manager, one
`addRelayId6(2001:db8::0, "wwwwwwww")` gives one row and the identical
second call gives two rows, and likewise for `addRemoteId6`; this matches
the repository test `relayIdTable6`, where six inserts containing one exact
duplicate yield a row count of six. -/
theorem claim1_counterexample :
    relayTableSize (addRelayId6 newState (addr6 0) (duid6 0)) = 1
    ∧ relayTableSize (addRelayId6 (addRelayId6 newState (addr6 0) (duid6 0))
        (addr6 0) (duid6 0)) = 2
    ∧ remoteTableSize (addRemoteId6 newState (addr6 0) (duid6 0)) = 1
    ∧ remoteTableSize (addRemoteId6 (addRemoteId6 newState (addr6 0) (duid6 0))
        (addr6 0) (duid6 0)) = 2
    ∧ relayTableSize (fillRelay6 initState6) = 6 := by
  decide

/-- Claim C1, amended: every secondary-index insert appends a row: a second
`addRelayId6` with identical arguments increases the relay-table row count
by one, exactly as an insert of a different identifier for the same address
does (and likewise for `addRemoteId6`); the duplicate row is absorbed at
query time, where deduplication by address makes the query result
insensitive to the duplicate insert. -/
theorem claim1_insert_appends_row :
    ∀ (s : LeaseMgrState) (a : Addr) (id id' : Ident),
      relayTableSize (addRelayId6 (addRelayId6 s a id) a id)
        = relayTableSize (addRelayId6 s a id) + 1
      ∧ relayTableSize (addRelayId6 (addRelayId6 s a id) a id')
        = relayTableSize (addRelayId6 s a id) + 1
      ∧ remoteTableSize (addRemoteId6 (addRemoteId6 s a id) a id)
        = remoteTableSize (addRemoteId6 s a id) + 1
      ∧ ∀ (link : Addr) (plen : Nat) (after : Addr) (psize : Nat),
          getLeases6ByRelayId (addRelayId6 (addRelayId6 s a id) a id)
              id link plen after psize
            = getLeases6ByRelayId (addRelayId6 s a id) id link plen after psize := by
  intro s a id id'
  refine ⟨?_, ?_, ?_, ?_⟩
  · simp [relayTableSize, addRelayId6]
  · simp [relayTableSize, addRelayId6]
  · simp [remoteTableSize, addRemoteId6]
  · intro link plen after psize
    exact relayQuery_dup_eq (addRelayId6 s a id) a id
      (List.mem_append.mpr (Or.inr (List.mem_singleton.mpr rfl)))
      link plen after psize

/-- Claim C2: `deleteExtendedInfo6(a)` removes every secondary-index row
whose address equals `a`, across all identifiers and from both tables;
a delete with no matching row (including a repeated delete of the same
address) is a no-op, not an error, leaving the tables unchanged; and in the
test scenario, after the six-row fill, deleting `2001:db8:1::4` keeps 6
relay rows while deleting `2001:db8::0` drops the relay row count from 6 to
3, and deleting it again keeps 3. -/
theorem claim2_cascade_delete :
    (∀ (s : LeaseMgrState) (a : Addr),
       (∀ r ∈ (deleteExtendedInfo6 s a).relay_id6, r.2 ≠ a)
       ∧ (∀ r ∈ (deleteExtendedInfo6 s a).remote_id6, r.2 ≠ a)
       ∧ deleteExtendedInfo6 (deleteExtendedInfo6 s a) a = deleteExtendedInfo6 s a)
    ∧ (∀ (s : LeaseMgrState) (a : Addr),
       (∀ r ∈ s.relay_id6, r.2 ≠ a) → (∀ r ∈ s.remote_id6, r.2 ≠ a) →
       deleteExtendedInfo6 s a = s)
    ∧ relayTableSize (fillRelay6 initState6) = 6
    ∧ relayTableSize (deleteExtendedInfo6 (fillRelay6 initState6) otherAddr) = 6
    ∧ relayTableSize (deleteExtendedInfo6 (fillRelay6 initState6) (addr6 0)) = 3
    ∧ relayTableSize (deleteExtendedInfo6 (deleteExtendedInfo6
        (fillRelay6 initState6) (addr6 0)) (addr6 0)) = 3 := by
  refine ⟨?_, ?_, by decide, by decide, by decide, by decide⟩
  · intro s a
    have hff : ∀ (X : List (Ident × Addr)),
        (X.filter (fun r => decide (r.2 ≠ a))).filter (fun r => decide (r.2 ≠ a))
          = X.filter (fun r => decide (r.2 ≠ a)) := by
      intro X
      rw [List.filter_filter]
      apply List.filter_congr
      intro x _
      cases hx : decide (x.2 ≠ a) <;> simp [hx]
    refine ⟨?_, ?_, ?_⟩
    · intro r hr
      exact of_decide_eq_true (List.mem_filter.mp hr).2
    · intro r hr
      exact of_decide_eq_true (List.mem_filter.mp hr).2
    · simp only [deleteExtendedInfo6]
      rw [hff, hff]
  · intro s a h1 h2
    simp only [deleteExtendedInfo6]
    rw [List.filter_eq_self.mpr (fun r hr => decide_eq_true (h1 r hr)),
      List.filter_eq_self.mpr (fun r hr => decide_eq_true (h2 r hr))]

/-- Claim C2 witness: the general no-match no-op applied at the fill state
and the off-table address `2001:db8:1::4`. -/
theorem claim2_witness :
    deleteExtendedInfo6 (fillRelay6 initState6) otherAddr = fillRelay6 initState6 :=
  claim2_cascade_delete.2.1 (fillRelay6 initState6) otherAddr
    (by decide) (by decide)

/-- Claim C3: pagination completeness and resumability for relay-id-scoped
queries: for every identifier and non-zero page size, when every matching
address is non-zero (the zero address is the "start" sentinel), issuing
`ceil(N / psize)` successive `getLeases6ByRelayId` calls starting from the
zero cursor, each resuming from the last address of the previous page,
yields exactly the full matching address list (each address exactly once, in
strictly ascending order), and a further call resuming from the last
matching address returns an empty page; concretely, with relay id
`"BBBBBBBB"` on `2001:db8::0`, `::1`, `::2`, a page-size-2 query from zero
returns `[::0, ::1]`, the follow-up from `after = ::1` returns `[::2]`, and
a further follow-up returns `[]`. -/
theorem claim3_pagination_completeness :
    (∀ (s : LeaseMgrState) (id : Ident) (psize : Nat), psize ≠ 0 →
      (∀ a ∈ relayMatch6 s id, 0 < a) →
      List.Pairwise (· < ·) (relayMatch6 s id)
      ∧ relayPages6 s id psize (pageCount (relayMatch6 s id).length psize) 0
          = relayMatch6 s id
      ∧ ∀ last, (relayMatch6 s id).getLast? = some last →
          getLeases6ByRelayId s id 0 0 last psize = .ok [])
    ∧ getLeases6ByRelayId (fillRelay6 initState6) (duid6 1) 0 0 0 2
        = .ok [testLease6 0, testLease6 1]
    ∧ getLeases6ByRelayId (fillRelay6 initState6) (duid6 1) 0 0 (addr6 1) 2
        = .ok [testLease6 2]
    ∧ getLeases6ByRelayId (fillRelay6 initState6) (duid6 1) 0 0 (addr6 2) 2
        = .ok [] := by
  refine ⟨?_, by rfl, by rfl, by rfl⟩
  intro s id psize hp h0
  have hfull : (relayMatch6 s id).filter (fun a => decide (0 < a))
      = relayMatch6 s id :=
    List.filter_eq_self.mpr (fun a ha => decide_eq_true (h0 a ha))
  refine ⟨pairwise_relayMatch6 s id, ?_, ?_⟩
  · have hc := relayPages6_complete_aux hp h0
      (pageCount (relayMatch6 s id).length psize) 0 (by rw [hfull])
    rw [hfull] at hc
    exact hc
  · intro last hl
    exact relay_after_last_empty hp h0 hl

/-- Claim C3 witness: the pagination completeness applied at the six-row
fill state, relay id `"BBBBBBBB"`, page size 2 (three matching addresses,
so two pages). -/
theorem claim3_witness :
    List.Pairwise (· < ·) (relayMatch6 (fillRelay6 initState6) (duid6 1))
    ∧ relayPages6 (fillRelay6 initState6) (duid6 1) 2
        (pageCount (relayMatch6 (fillRelay6 initState6) (duid6 1)).length 2) 0
        = relayMatch6 (fillRelay6 initState6) (duid6 1) := by
  have h := claim3_pagination_completeness.1 (fillRelay6 initState6) (duid6 1) 2
    (by decide) (by decide)
  exact ⟨h.1, h.2.1⟩

/-- Claim C4: identifier-scoped query results are deduplicated by address:
every successful `getLeases6ByRelayId` / `getLeases6ByRemoteId` result has
pairwise distinct lease addresses; concretely, with three matching rows
covering two distinct addresses, the query returns exactly two leases. -/
theorem claim4_query_dedup :
    (∀ (s : LeaseMgrState) (id : Ident) (link : Addr) (plen : Nat)
       (after : Addr) (psize : Nat) (res : List Lease6),
       getLeases6ByRelayId s id link plen after psize = .ok res →
       (res.map Lease6.addr).Nodup)
    ∧ (∀ (s : LeaseMgrState) (id : Ident) (link : Addr) (plen : Nat)
       (after : Addr) (psize : Nat) (res : List Lease6),
       getLeases6ByRemoteId s id link plen after psize = .ok res →
       (res.map Lease6.addr).Nodup)
    ∧ getLeases6ByRelayId (fillRelay6 initState6) (duid6 0) 0 0 0 100
        = .ok [testLease6 0, testLease6 1]
    ∧ getLeases6ByRemoteId (fillRemote6 initState6) (duid6 0) 0 0 0 10
        = .ok [testLease6 0, testLease6 1] := by
  refine ⟨?_, ?_, by rfl, by rfl⟩
  · intro s id link plen after psize res h
    exact (idQuery_ok_sorted h).imp Nat.ne_of_lt
  · intro s id link plen after psize res h
    exact (idQuery_ok_sorted h).imp Nat.ne_of_lt

/-- Claim C4 witness: the deduplication fact applied at the fill state and
relay id `"wwwwwwww"` (three rows, two addresses). -/
theorem claim4_witness :
    (([testLease6 0, testLease6 1] : List Lease6).map Lease6.addr).Nodup :=
  claim4_query_dedup.1 (fillRelay6 initState6) (duid6 0) 0 0 0 100
    [testLease6 0, testLease6 1] (by rfl)

/-- Claim C5: link scoping is a prefix containment test: every lease
returned by a link-scoped identifier query has its address's leading
`plen` bits equal to the link address's leading bits; the result is
unchanged when the link address is replaced by any other address with the
same leading bits (the exact representative within the prefix does not
matter); and concretely the off-prefix link `2001:db8:1::4` /64 excludes
everything while the scope `2001:db8::4` /64 returns the three on-prefix
leases. -/
theorem claim5_link_prefix_containment :
    (∀ (s : LeaseMgrState) (id : Ident) (link : Addr) (plen : Nat)
       (after : Addr) (psize : Nat) (res : List Lease6), link ≠ 0 →
       getLeases6ByRelayId s id link plen after psize = .ok res →
       ∀ l ∈ res, prefixEq plen link l.addr = true)
    ∧ (∀ (s : LeaseMgrState) (id : Ident) (link link' : Addr) (plen : Nat)
       (after : Addr) (psize : Nat), link ≠ 0 → link' ≠ 0 →
       prefixEq plen link link' = true →
       getLeases6ByRelayId s id link plen after psize
         = getLeases6ByRelayId s id link' plen after psize)
    ∧ getLeases6ByRelayId (fillRelay6 initState6) (duid6 0) otherAddr 64 0 100
        = .ok []
    ∧ getLeases6ByRelayId (addRelayId6 (fillRelay6 initState6) (addr6 0) (duid6 1))
        (duid6 1) (addr6 4) 64 0 100
        = .ok [testLease6 0, testLease6 1, testLease6 2] := by
  refine ⟨?_, ?_, by rfl, by rfl⟩
  · intro s id link plen after psize res hlink h l hl
    obtain ⟨hmem, _⟩ := idQuery_ok_mem h hl
    exact Or.resolve_left (mem_idQueryAddrs.mp hmem).2.2.1 hlink
  · intro s id link link' plen after psize hl hl' hpe
    exact idQuery_link_congr after psize hl hl' hpe

/-- Claim C5 witness: representative independence applied to two distinct
on-prefix link addresses of the same /64. -/
theorem claim5_witness :
    getLeases6ByRelayId (fillRelay6 initState6) (duid6 1) (addr6 4) 64 0 100
      = getLeases6ByRelayId (fillRelay6 initState6) (duid6 1) (addr6 5) 64 0 100 :=
  claim5_link_prefix_containment.2.1 (fillRelay6 initState6) (duid6 1)
    (addr6 4) (addr6 5) 64 0 100 (by decide) (by decide) (by decide)

/-- Claim C6: `getLeases6ByLink` scans the primary index directly: every
successful result is in strictly ascending address order, truncated to the
page size, and contains only leases of the primary index whose address lies
in the link prefix and is strictly greater than the cursor; whenever the
returned page is not full, every primary-index lease satisfying the prefix
and cursor conditions is in it (with the primary-index address-uniqueness
invariant); the query is insensitive to emptying the relay and remote
secondary tables; and concretely it returns all eight test leases while the
secondary tables are empty. -/
theorem claim6_by_link_scans_primary :
    (∀ (s : LeaseMgrState) (link : Addr) (plen : Nat) (after : Addr)
       (psize : Nat) (res : List Lease6),
       getLeases6ByLink s link plen after psize = .ok res →
       List.Pairwise (· < ·) (res.map Lease6.addr)
       ∧ res.length ≤ psize
       ∧ ∀ l ∈ res, prefixEq plen link l.addr = true
           ∧ (after = 0 ∨ after < l.addr)
           ∧ getLease6 s l.addr = some l)
    ∧ (∀ (s : LeaseMgrState) (link : Addr) (plen : Nat) (after : Addr)
       (psize : Nat),
       getLeases6ByLink { s with relay_id6 := [], remote_id6 := [] }
           link plen after psize
         = getLeases6ByLink s link plen after psize)
    ∧ (∀ (s : LeaseMgrState) (link : Addr) (plen : Nat) (after : Addr)
       (psize : Nat) (res : List Lease6),
       (s.leases6.map Lease6.addr).Nodup →
       getLeases6ByLink s link plen after psize = .ok res →
       res.length < psize →
       ∀ l ∈ s.leases6, prefixEq plen link l.addr = true →
         (after = 0 ∨ after < l.addr) → l ∈ res)
    ∧ getLeases6ByLink initState6 (addr6 4) 64 0 10
        = .ok ((List.range 8).map testLease6)
    ∧ getLeases6ByLink initState6 otherAddr 64 0 10 = .ok [] := by
  refine ⟨?_, ?_, ?_, by rfl, by rfl⟩
  · intro s link plen after psize res h
    refine ⟨linkQuery_ok_sorted h, linkQuery_ok_length h, ?_⟩
    intro l hl
    obtain ⟨hmem, hres⟩ := linkQuery_ok_mem h hl
    obtain ⟨_, hafter, hpre, _⟩ := mem_linkQueryAddrs.mp hmem
    exact ⟨hpre, hafter, hres⟩
  · intro s link plen after psize
    rfl
  · intro s link plen after psize res hnd h hlt l hl hpre hafter
    have haddrs := linkQuery_ok_addrs h
    have hlen : res.length
        = min psize (linkQueryAddrs s link plen after).length := by
      have hc := congrArg List.length haddrs
      simpa using hc
    have hLlt : (linkQueryAddrs s link plen after).length < psize := by
      omega
    have htake : (linkQueryAddrs s link plen after).take psize
        = linkQueryAddrs s link plen after :=
      List.take_of_length_le (by omega)
    have hsome : getLease6 s l.addr = some l := getLease6_self hnd hl
    have hmemL : l.addr ∈ linkQueryAddrs s link plen after :=
      mem_linkQueryAddrs.mpr ⟨List.mem_map.mpr ⟨l, hl, rfl⟩, hafter, hpre,
        by rw [hsome]; rfl⟩
    unfold getLeases6ByLink at h
    by_cases hp : psize = 0
    · omega
    · rw [if_neg hp] at h
      have hres : res = ((linkQueryAddrs s link plen after).take
          psize).filterMap (getLease6 s) := by
        cases h; rfl
      rw [hres]
      apply List.mem_filterMap.mpr
      refine ⟨l.addr, ?_, hsome⟩
      rw [htake]
      exact hmemL

/-- Claim C6 witness: order and truncation applied at the initial state's
full-prefix scan of the eight test leases. -/
theorem claim6_witness :
    List.Pairwise (· < ·) (((List.range 8).map testLease6).map Lease6.addr)
    ∧ ((List.range 8).map testLease6).length ≤ 10 := by
  have h := claim6_by_link_scans_primary.1 initState6 (addr6 4) 64 0 10
    ((List.range 8).map testLease6) (by rfl)
  exact ⟨h.1, h.2.1⟩

/-- Claim C7: orphaned secondary rows are tolerated defensively: removing
from both secondary tables every row whose address has no primary lease
leaves every identifier-scoped query result unchanged (the orphaned rows
are silently skipped); every returned lease really is the primary-index
lease at its address; no valid page size produces an error; and concretely
in the `relayIdTable6` scenario (rows inserted with no leases at all) the
rows exist but queries return empty, while with a single lease present the
query returns exactly it despite the orphaned rows alongside. -/
theorem claim7_orphan_rows_skipped :
    (∀ (s : LeaseMgrState) (id : Ident) (link : Addr) (plen : Nat)
       (after : Addr) (psize : Nat),
       getLeases6ByRelayId (pruneOrphans6 s) id link plen after psize
         = getLeases6ByRelayId s id link plen after psize
       ∧ getLeases6ByRemoteId (pruneOrphans6 s) id link plen after psize
         = getLeases6ByRemoteId s id link plen after psize)
    ∧ (∀ (s : LeaseMgrState) (id : Ident) (link : Addr) (plen : Nat)
       (after : Addr) (psize : Nat) (res : List Lease6),
       getLeases6ByRelayId s id link plen after psize = .ok res →
       ∀ l ∈ res, getLease6 s l.addr = some l)
    ∧ (∀ (s : LeaseMgrState) (id : Ident) (link : Addr) (plen : Nat)
       (after : Addr) (psize : Nat), psize ≠ 0 →
       ∃ res, getLeases6ByRelayId s id link plen after psize = .ok res)
    ∧ relayTableSize (fillRelay6 newState) = 6
    ∧ getLeases6ByRelayId (fillRelay6 newState) (duid6 0) 0 0 0 100 = .ok []
    ∧ getLeases6ByRelayId (fillRelay6 (addLease6 newState (testLease6 0)).1)
        (duid6 0) 0 0 0 100 = .ok [testLease6 0] := by
  refine ⟨?_, ?_, ?_, by decide, by rfl, by rfl⟩
  · intro s id link plen after psize
    constructor
    · show getLeases6ByIdTable
          (s.relay_id6.filter (fun r => (getLease6 s r.2).isSome)) s
          id link plen after psize
        = getLeases6ByIdTable s.relay_id6 s id link plen after psize
      exact idQuery_prune_eq s.relay_id6 s id link plen after psize
    · show getLeases6ByIdTable
          (s.remote_id6.filter (fun r => (getLease6 s r.2).isSome)) s
          id link plen after psize
        = getLeases6ByIdTable s.remote_id6 s id link plen after psize
      exact idQuery_prune_eq s.remote_id6 s id link plen after psize
  · intro s id link plen after psize res h
    exact idQuery_ok_resolves h
  · intro s id link plen after psize hp
    refine ⟨((idQueryAddrs s.relay_id6 s id link plen after).take
      psize).filterMap (getLease6 s), ?_⟩
    unfold getLeases6ByRelayId getLeases6ByIdTable
    rw [if_neg hp]

/-- Claim C7 witness: a query over a state whose secondary rows are all
orphaned succeeds (no error) at a valid page size. -/
theorem claim7_witness :
    ∃ res, getLeases6ByRelayId (fillRelay6 newState) (duid6 0) 0 0 0 100
      = .ok res :=
  claim7_orphan_rows_skipped.2.2.1 (fillRelay6 newState) (duid6 0) 0 0 0 100
    (by decide)

/-- Claim C8: page-size validation and empty-page termination: every page
request with page size zero is rejected with `InvalidArgument` (the query
functions are pure, so no state is touched), every non-zero page size
yields a successful (possibly empty) page, an empty page is a normal
non-error outcome, and the empty page is distinguishable from the
`InvalidArgument` rejection. -/
theorem claim8_page_size_validation :
    (∀ (s : LeaseMgrState) (id : Ident) (link : Addr) (plen : Nat)
       (after : Addr),
       getLeases6ByRelayId s id link plen after 0 = .error .invalidArgument)
    ∧ (∀ (s : LeaseMgrState) (id : Ident) (link : Addr) (plen : Nat)
       (after : Addr),
       getLeases6ByRemoteId s id link plen after 0 = .error .invalidArgument)
    ∧ (∀ (s : LeaseMgrState) (link : Addr) (plen : Nat) (after : Addr),
       getLeases6ByLink s link plen after 0 = .error .invalidArgument)
    ∧ (∀ (s : LeaseMgrState) (id : Ident) (link : Addr) (plen : Nat)
       (after : Addr) (psize : Nat), psize ≠ 0 →
       ∃ res, getLeases6ByRelayId s id link plen after psize = .ok res)
    ∧ getLeases6ByRelayId initState6 (duid6 2) 0 0 0 100 = .ok []
    ∧ (Except.ok ([] : List Lease6)
        ≠ (Except.error .invalidArgument : Except LeaseErr (List Lease6))) := by
  refine ⟨?_, ?_, ?_, ?_, by rfl, by simp⟩
  · intro s id link plen after
    rfl
  · intro s id link plen after
    rfl
  · intro s link plen after
    rfl
  · intro s id link plen after psize hp
    refine ⟨((idQueryAddrs s.relay_id6 s id link plen after).take
      psize).filterMap (getLease6 s), ?_⟩
    unfold getLeases6ByRelayId getLeases6ByIdTable
    rw [if_neg hp]

/-- Claim C8 witness: a valid page size at a concrete state and identifier
yields a successful page. -/
theorem claim8_witness :
    ∃ res, getLeases6ByRelayId initState6 (duid6 1) 0 0 0 5 = .ok res :=
  claim8_page_size_validation.2.2.2.1 initState6 (duid6 1) 0 0 0 5 (by decide)

/-- Claim C9: add/get round trip: adding leases with pairwise distinct
addresses (all fresh for the starting state) succeeds, and afterwards a
get by each added address returns a lease equal to the one added;
concretely the eight test leases all round-trip from the empty manager. -/
theorem claim9_add_get_roundtrip :
    (∀ (s : LeaseMgrState) (ls : List Lease6),
      (ls.map Lease6.addr).Nodup →
      (∀ l ∈ ls, getLease6 s l.addr = none) →
      (addLeases6 s ls).2 = true
      ∧ ∀ l ∈ ls, getLease6 (addLeases6 s ls).1 l.addr = some l)
    ∧ (addLeases6 newState ((List.range 8).map testLease6)).2 = true
    ∧ ∀ i < 8, getLease6 initState6 (addr6 i) = some (testLease6 i) := by
  refine ⟨fun s ls hnd habs => addLeases6_spec ls s hnd habs, by rfl, by decide⟩

/-- Claim C9 witness: the round trip applied to the eight concrete test
leases from the fresh manager. -/
theorem claim9_witness :
    (addLeases6 newState ((List.range 8).map testLease6)).2 = true
    ∧ ∀ l ∈ (List.range 8).map testLease6,
        getLease6 (addLeases6 newState ((List.range 8).map testLease6)).1 l.addr
          = some l :=
  claim9_add_get_roundtrip.1 newState ((List.range 8).map testLease6)
    (by decide) (by decide)

/-- Claim C10: mode equivalence: any operation sequence issued from a
single thread against an engine started in multi-threaded mode (lock free
at each call, taken for the duration of each operation and released at its
exit) produces exactly the same outputs, the same final table state, and
the same secondary-index row counts as the identical sequence against a
single-threaded engine. -/
theorem claim10_mode_equivalence :
    ∀ (ops : List Op) (s0 : LeaseMgrState),
      ∃ (eM eS : Engine) (outs : List Out),
        runOps ⟨true, false, s0⟩ ops = some (eM, outs)
        ∧ runOps ⟨false, false, s0⟩ ops = some (eS, outs)
        ∧ eM.st = eS.st
        ∧ relayTableSize eM.st = relayTableSize eS.st
        ∧ remoteTableSize eM.st = remoteTableSize eS.st := by
  intro ops
  induction ops with
  | nil =>
    intro s0
    exact ⟨⟨true, false, s0⟩, ⟨false, false, s0⟩, [], rfl, rfl, rfl, rfl, rfl⟩
  | cons op ops ih =>
    intro s0
    obtain ⟨eM, eS, outs, hM, hS, hst, hrel, hrem⟩ := ih (applyOp s0 op).1
    refine ⟨eM, eS, (applyOp s0 op).2 :: outs, ?_, ?_, hst, hrel, hrem⟩
    · simp only [runOps_cons, runOp_mt, Option.some_bind, hM, Option.map_some']
    · simp only [runOps_cons, runOp_st, Option.some_bind, hS, Option.map_some']

end Kea